import Mathlib

/-!
Verification of the triSYCL core header (include/CL/implementation/sycl-implementation.hpp).

The C++ source is shallowly embedded as follows.

* The C++ type range<Dimensions> derives from std::vector<intptr_t>; it is a
  dynamically sized vector of signed machine integers whose intended length is
  the template parameter Dimensions.  It is modelled as List Int, with the
  template parameter Dimensions passed separately where the C++ code uses it.
  Machine-integer overflow of intptr_t is not modelled: all claims are about
  small non-negative sizes.
* The element-wise operators on range (operator/ with upper rounding,
  operator* and operator+) loop for i in [0, Dimensions) over a
  default-constructed result (Dimensions zeros) and read a[i], b[i]; C++
  signed integer division truncates toward zero, which is Int.tdiv in Lean.
* nd_range<dims> stores GlobalRange, LocalRange and Offset; the constructor
  takes an offset defaulting to the initializer list { 0, 0, 0 }, which for
  the vector base class builds a vector of three zeros whatever dims is.
* The recursive iterator ParallelForIterate<level, Range, Functor, Id> loops
  dimension Range::dimensionality - level over [0, r[dim]) on a shared
  mutable index buffer and recurses; at level 0 it calls the functor on the
  fully populated index.  It is modelled as a state-passing function: the
  functor becomes a state transformer observing the index value at each leaf,
  and the shared buffer is threaded through explicitly.
* parallel_for(range, f) (the sequential, non-OpenMP branch) runs the
  iterator over the whole range on a default-constructed index; the model
  records the sequence of id values the kernel is invoked on.
* parallel_for(nd_range, f) iterates the iterator over the group range, and
  inside each group over the local range, reconstructing the global id as
  Local + LocalRange * Group before invoking the kernel on the item; the
  model records the sequence of items passed to the kernel.
* buffer / accessor wrap boost::multi_array storage.  Storage blocks are
  modelled by an explicit memory (a list of flat element blocks, row-major);
  a buffer holds its shape, the index of the block its Access refers to, and
  its ReadOnly flag.  The flag is an Option Bool because one constructor of
  the C++ class leaves the member uninitialized (none models the
  indeterminate value).
* boost::multi_array_ref with C storage order addresses element c of an
  array of shape s at flat offset sum over i of c[i] * prod s[i+1..], and
  its operator[](i) selects the i-th slice along the first dimension, whose
  storage starts at flat offset i * prod s[1..].
-/

namespace TriSYCL

/-- Model of range<Dimensions>: the underlying std::vector<intptr_t>. -/
abbrev SyclRange := List Int

/-- Model of the default constructor range(): a vector of Dimensions zeros. -/
def range.mkDefault (D : Nat) : SyclRange := List.replicate D 0

/-- Model of operator/(range, range): element-wise division with upper
rounding, result[i] = (dividend[i] + divisor[i] - 1) / divisor[i] for
i in [0, Dimensions), C++ signed division truncating toward zero. -/
def range.ceilDiv (D : Nat) (dividend divisor : SyclRange) : SyclRange :=
  (List.range D).map fun i =>
    Int.tdiv (dividend.getD i 0 + divisor.getD i 0 - 1) (divisor.getD i 0)

/-- Model of operator*(range, range): element-wise multiplication. -/
def range.mul (D : Nat) (a b : SyclRange) : SyclRange :=
  (List.range D).map fun i => a.getD i 0 * b.getD i 0

/-- Model of operator+(range, range): element-wise addition. -/
def range.add (D : Nat) (a b : SyclRange) : SyclRange :=
  (List.range D).map fun i => a.getD i 0 + b.getD i 0

/-- Model of nd_range<dims>: the template parameter and the three fields. -/
structure nd_range where
  dims : Nat
  GlobalRange : SyclRange
  LocalRange : SyclRange
  Offset : SyclRange
deriving DecidableEq

/-- Model of the nd_range constructor called without an explicit offset: the
default argument is the initializer list { 0, 0, 0 }, which selects the
inherited std::vector initializer-list constructor and produces a vector of
three zeros for every dims. -/
def nd_range.make (dims : Nat) (global_size local_size : SyclRange) : nd_range :=
  ⟨dims, global_size, local_size, [0, 0, 0]⟩

/-- Model of nd_range::get_global_range(). -/
def nd_range.get_global_range (r : nd_range) : SyclRange := r.GlobalRange

/-- Model of nd_range::get_local_range(). -/
def nd_range.get_local_range (r : nd_range) : SyclRange := r.LocalRange

/-- Model of nd_range::get_group_range(): GlobalRange / LocalRange with the
element-wise upper-rounding division. -/
def nd_range.get_group_range (r : nd_range) : SyclRange :=
  range.ceilDiv r.dims r.GlobalRange r.LocalRange

/-- Model of nd_range::get_offset(). -/
def nd_range.get_offset (r : nd_range) : SyclRange := r.Offset

/-- Model of item<dims>: global index, local index and the owning nd_range. -/
structure item where
  GlobalIndex : List Int
  LocalIndex : List Int
  NDRange : nd_range
deriving DecidableEq

/-- Model of item::get_global(). -/
def item.get_global (it : item) : List Int := it.GlobalIndex

/-- Model of item::get_local(). -/
def item.get_local (it : item) : List Int := it.LocalIndex

/-- Model of ParallelForIterate<level, Range, Functor, Id>.  The functor is a
state transformer f observing the index at each leaf; the shared mutable
index buffer is threaded explicitly and returned together with the state.
At level 0 the functor is invoked on the index; at level L + 1 the loop runs
the dimension D - (L + 1) slot of the buffer over [0, r[D - (L + 1)]) (no
iterations when that extent is not positive, as for the C++ signed loop)
and recurses at level L after setting the slot. -/
def ParallelForIterate {σ : Type} (D : Nat) (r : SyclRange) (f : List Int → σ → σ) :
    Nat → List Int → σ → List Int × σ
  | 0, index, s => (index, f index s)
  | L + 1, index, s =>
    (List.range (r.getD (D - (L + 1)) 0).toNat).foldl
      (fun acc (i : Nat) =>
        ParallelForIterate D r f L (acc.1.set (D - (L + 1)) (i : Int)) acc.2)
      (index, s)

/-- Model of parallel_for(range<Dimensions> r, f), sequential branch: run the
iterator at level Dimensions on a default-constructed index; the model
records, in order, every id value the kernel f is invoked on. -/
def parallel_for (D : Nat) (r : SyclRange) : List (List Int) :=
  (ParallelForIterate D r (fun index t => t ++ [index]) D (range.mkDefault D) []).2

/-- Model of parallel_for(nd_range<Dimensions> r, f): the outer iterator runs
over the group range with the shared Group buffer; inside each group the
inner iterator runs over the local range with the shared Local buffer, and
at each leaf reconstructItem sets the item fields to
(Local + LocalRange * Group, Local) and invokes the kernel on the item.  The
model records, in order, every item value the kernel f is invoked on. -/
def parallel_for_nd (r : nd_range) : List item :=
  let D := r.dims
  let GroupRange := r.get_group_range
  let LocalRange := r.get_local_range
  (ParallelForIterate D GroupRange
    (fun Group st =>
      ParallelForIterate D LocalRange
        (fun Local t =>
          t ++ [⟨range.add D Local (range.mul D LocalRange Group), Local, r⟩])
        D st.1 st.2)
    D (range.mkDefault D) (range.mkDefault D, ([] : List item))).2.2

/-- Model of parallel_for(Range r, Program p, f): the body ignores the
program token and calls parallel_for(r, f); this is the instantiation for a
flat range. -/
def parallel_for_program {P : Type} (D : Nat) (r : SyclRange) (p : P) : List (List Int) :=
  parallel_for D r

/-- Model of parallel_for(Range r, Program p, f) instantiated for an
nd_range: the body ignores the program token and calls parallel_for(r, f). -/
def parallel_for_nd_program {P : Type} (r : nd_range) (p : P) : List item :=
  parallel_for_nd r

/-- Model of parallel_for_workgroup(Range r, f): the function body is empty,
so, as a transformer of any reachable state, it is the identity and never
invokes the functor. -/
def parallel_for_workgroup {R F σ : Type} (r : R) (f : F) (s : σ) : σ := s

/-- Model of parallel_for_workitem(Range r, f): the function body is empty,
so, as a transformer of any reachable state, it is the identity and never
invokes the functor. -/
def parallel_for_workitem {R F σ : Type} (r : R) (f : F) (s : σ) : σ := s

/-- Specification-side enumeration of the integer box
[0, s[0]) x ... x [0, s[D-1]) in lexicographic order, dimension 0 slowest.
Used to state coverage of the launches. -/
def cart : List Int → List (List Int)
  | [] => [[]]
  | s :: rest => (List.range s.toNat).flatMap fun i => (cart rest).map fun c => (i : Int) :: c

/-- Explicit memory holding every storage block (buffer-owned allocations as
well as caller-owned host arrays), each a flat row-major element list. -/
structure Memory (α : Type) where
  blocks : List (List α)

/-- Allocate a fresh storage block, returning the new memory and the index
of the block. -/
def Memory.alloc {α : Type} (m : Memory α) (data : List α) : Memory α × Nat :=
  (⟨m.blocks ++ [data]⟩, m.blocks.length)

/-- Number of elements of a multi-dimensional shape. -/
def shapeSize (s : SyclRange) : Nat := (s.map Int.toNat).prod

/-- Model of buffer<T, dimensions>: the shape, the index of the storage
block the Access member refers to, and the ReadOnly flag.  The flag is an
Option Bool: none models the indeterminate value of the uninitialized
member. -/
structure buffer (α : Type) where
  shape : SyclRange
  block : Nat
  ReadOnly : Option Bool
deriving DecidableEq

/-- Model of buffer(range<dimensions> r): allocates owned storage of size r
(boost::multi_array value-initializes the elements) and sets ReadOnly to
false. -/
def buffer.ofRange {α : Type} [Inhabited α] (m : Memory α) (r : SyclRange) :
    Memory α × buffer α :=
  let a := m.alloc (List.replicate (shapeSize r) default)
  (a.1, ⟨r, a.2, some false⟩)

/-- Model of buffer(T* host_data, range<dimensions> r): wraps the existing
caller-owned block host without allocating and sets ReadOnly to false. -/
def buffer.ofHostData {α : Type} (m : Memory α) (host : Nat) (r : SyclRange) : buffer α :=
  ⟨r, host, some false⟩

/-- Model of buffer(const T* host_data, range<dimensions> r): wraps the
existing caller-owned block host without allocating and sets ReadOnly to
true. -/
def buffer.ofConstHostData {α : Type} (m : Memory α) (host : Nat) (r : SyclRange) : buffer α :=
  ⟨r, host, some true⟩

/-- Model of buffer(T* start_iterator, T* end_iterator): allocates a fresh
one-dimensional block sized to the element count, copies the elements in,
and leaves the ReadOnly member uninitialized (the constructor initializer
list mentions only Allocation and Access). -/
def buffer.ofIterPair {α : Type} (m : Memory α) (data : List α) : Memory α × buffer α :=
  let a := m.alloc data
  (a.1, ⟨[(data.length : Int)], a.2, none⟩)

/-- Model of buffer(buffer&lt;T, dimensions&gt; &amp;b): Allocation(b.Access)
allocates fresh storage holding a copy of the current contents of the block
b refers to, Access(Allocation) binds the new buffer to that fresh block,
and ReadOnly is set to false. -/
def buffer.copy {α : Type} (m : Memory α) (b : buffer α) : Memory α × buffer α :=
  let a := m.alloc (m.blocks.getD b.block [])
  (a.1, ⟨b.shape, a.2, some false⟩)

/-- Model of accessor<dataType, dimensions, mode, target>: constructed from a
buffer, its multi_array_ref views the same storage block under the same
shape. -/
structure accessor (α : Type) where
  shape : SyclRange
  block : Nat
deriving DecidableEq

/-- Model of buffer::get_access(): builds the accessor from the buffer. -/
def buffer.get_access {α : Type} (b : buffer α) : accessor α := ⟨b.shape, b.block⟩

/-- Read the element at flat row-major offset i of the storage block an
accessor views. -/
def accessor.readFlat {α : Type} [Inhabited α] (m : Memory α) (a : accessor α) (i : Nat) : α :=
  (m.blocks.getD a.block []).getD i default

/-- Write the element at flat row-major offset i of the storage block an
accessor views. -/
def accessor.writeFlat {α : Type} (m : Memory α) (a : accessor α) (i : Nat) (v : α) : Memory α :=
  ⟨m.blocks.set a.block ((m.blocks.getD a.block []).set i v)⟩

/-- Flat row-major offset of the element the boost multi_array operator()
addresses for multi-index c in an array of shape s: sum over i of
c[i] * prod s[i+1..]. -/
def rowMajorOffset : List Int → List Int → Int
  | _ :: srest, c :: crest => c * srest.prod + rowMajorOffset srest crest
  | _, _ => 0

/-- Storage offset addressed by accessor::operator[](size_t Index): the
boost multi_array operator[] selects slice Index along the first dimension,
whose storage starts at flat offset Index * prod shape[1..] (for a
one-dimensional array this is the element at offset Index). -/
def accessor.subscriptOffset (shape : SyclRange) (i : Int) : Int :=
  i * (shape.drop 1).prod

/-- Storage offset addressed by accessor::operator[](id<dimensionality>
Index), which evaluates Array(Index): the element at the row-major offset of
the multi-index. -/
def accessor.idOffset (shape : SyclRange) (c : List Int) : Int :=
  rowMajorOffset shape c

/-- Storage offset addressed by accessor::operator[](item<dimensionality>
Index), which evaluates Array(Index.get_global()). -/
def accessor.itemOffset (shape : SyclRange) (it : item) : Int :=
  rowMajorOffset shape (item.get_global it)

/-- Storage offset reached by chaining one boost multi_array operator[] per
dimension, as a kernel written a[c0][c1]... does. -/
def accessor.chainSubscriptOffset : SyclRange → List Int → Int
  | _, [] => 0
  | shape, c0 :: crest =>
    accessor.subscriptOffset shape c0 + accessor.chainSubscriptOffset (shape.drop 1) crest

/-- Bounds predicate of the integer box: componentwise 0 <= c[i] < s[i], and
the coordinate has exactly as many components as the size vector. -/
abbrev inBox (c s : List Int) : Prop :=
  List.Forall₂ (fun ci si => 0 ≤ ci ∧ ci < si) c s

/-! Helper lemmas shared by the claim theorems. -/

theorem foldl_snoc {α : Type} (l t0 : List α) :
    l.foldl (fun t c => t ++ [c]) t0 = t0 ++ l := by
  induction l generalizing t0 with
  | nil => simp
  | cons a l ihl => simp [ihl]

theorem foldl_map_snoc {α β : Type} (g : α → β) (l : List α) (t0 : List β) :
    l.foldl (fun t c => t ++ [g c]) t0 = t0 ++ l.map g := by
  induction l generalizing t0 with
  | nil => simp
  | cons a l ihl => simp [ihl]

theorem take_prefix_append {α : Type} (l1 l2 : List α) (d : Nat) (h : l1.length = d) :
    (l1 ++ l2).take d = l1 := by
  subst h
  rw [List.take_append_eq_append_take, List.take_length, Nat.sub_self, List.take_zero,
    List.append_nil]

theorem take_set_succ {α : Type} (l : List α) (d : Nat) (v : α) (hd : d < l.length) :
    (l.set d v).take (d + 1) = l.take d ++ [v] := by
  rw [List.set_eq_take_append_cons_drop, if_pos hd, List.take_append_eq_append_take]
  have h1 : (l.take d).length = d := by rw [List.length_take]; omega
  rw [List.take_take]
  have h2 : (d + 1) ⊓ d = d := by omega
  rw [h2, h1]
  have h3 : d + 1 - d = 1 := by omega
  rw [h3]
  simp

/-- Characterization of the recursive iterator at any level L <= D on a
well-formed index buffer: the buffer keeps its length, the slots before
D - L are untouched, and the functor is folded, in order, over every
coordinate of the box spanned by the last L extents, each presented with the
untouched prefix of the buffer in front. -/
theorem ParallelForIterate_spec {σ : Type} (D : Nat) (r : SyclRange) (f : List Int → σ → σ)
    (hr : r.length = D) :
    ∀ (L : Nat) (index : List Int) (s : σ), L ≤ D → index.length = D →
      (ParallelForIterate D r f L index s).1.length = D ∧
      (ParallelForIterate D r f L index s).1.take (D - L) = index.take (D - L) ∧
      (ParallelForIterate D r f L index s).2 =
        ((cart (r.drop (D - L))).map fun c => index.take (D - L) ++ c).foldl
          (fun t c => f c t) s := by
  intro L
  induction L with
  | zero =>
    intro index s _ hidx
    have hdrop : r.drop (D - 0) = [] := List.drop_eq_nil_of_le (by omega)
    have ht : index.take D = index := by
      rw [← hidx, List.take_length]
    refine ⟨hidx, rfl, ?_⟩
    rw [hdrop]
    simp [ParallelForIterate, cart, ht]
  | succ L ih =>
    intro index s hL hidx
    have hdd : D - L = (D - (L + 1)) + 1 := by omega
    have loop : ∀ (ns : List Nat) (ix : List Int) (t : σ), ix.length = D →
        ((ns.foldl
            (fun acc (i : Nat) =>
              ParallelForIterate D r f L (acc.1.set (D - (L + 1)) (i : Int)) acc.2)
            (ix, t)).1.length = D ∧
         (ns.foldl
            (fun acc (i : Nat) =>
              ParallelForIterate D r f L (acc.1.set (D - (L + 1)) (i : Int)) acc.2)
            (ix, t)).1.take (D - (L + 1)) = ix.take (D - (L + 1)) ∧
         (ns.foldl
            (fun acc (i : Nat) =>
              ParallelForIterate D r f L (acc.1.set (D - (L + 1)) (i : Int)) acc.2)
            (ix, t)).2 =
           (ns.flatMap fun i =>
              (cart (r.drop ((D - (L + 1)) + 1))).map fun c =>
                ix.take (D - (L + 1)) ++ (i : Int) :: c).foldl (fun t c => f c t) t) := by
      intro ns
      induction ns with
      | nil => intro ix t hix; exact ⟨hix, rfl, rfl⟩
      | cons i ns ihn =>
        intro ix t hix
        have hset : (ix.set (D - (L + 1)) (i : Int)).length = D := by
          rw [List.length_set]; exact hix
        obtain ⟨q1, q2, q3⟩ := ih (ix.set (D - (L + 1)) (i : Int)) t (by omega) hset
        obtain ⟨ix1, t1, hP⟩ :
            ∃ ix1 t1,
              ParallelForIterate D r f L (ix.set (D - (L + 1)) (i : Int)) t = (ix1, t1) :=
          ⟨_, _, rfl⟩
        simp only [hP] at q1 q2 q3
        simp only [List.foldl_cons, hP]
        obtain ⟨w1, w2, w3⟩ := ihn ix1 t1 q1
        have hq13 : ix1.take (D - (L + 1)) = ix.take (D - (L + 1)) := by
          have e1 : (D - (L + 1)) ⊓ (D - L) = D - (L + 1) := by omega
          calc ix1.take (D - (L + 1))
              = (ix1.take (D - L)).take (D - (L + 1)) := by rw [List.take_take, e1]
            _ = ((ix.set (D - (L + 1)) (i : Int)).take (D - L)).take (D - (L + 1)) := by
                rw [q2]
            _ = (ix.take (D - (L + 1)) ++ [(i : Int)]).take (D - (L + 1)) := by
                rw [hdd, take_set_succ ix (D - (L + 1)) _ (by omega)]
            _ = ix.take (D - (L + 1)) :=
                take_prefix_append _ _ _ (by rw [List.length_take]; omega)
        have ht1 : t1 =
            ((cart (r.drop ((D - (L + 1)) + 1))).map fun c =>
              ix.take (D - (L + 1)) ++ (i : Int) :: c).foldl (fun t c => f c t) t := by
          rw [q3, hdd, take_set_succ ix (D - (L + 1)) _ (by omega)]
          simp only [List.append_assoc, List.singleton_append]
        refine ⟨w1, by rw [w2, hq13], ?_⟩
        rw [w3, hq13, ht1, List.flatMap_cons, List.foldl_append]
    have e := loop (List.range (r.getD (D - (L + 1)) 0).toNat) index s hidx
    have hgoalshape :
        ParallelForIterate D r f (L + 1) index s =
          (List.range (r.getD (D - (L + 1)) 0).toNat).foldl
            (fun acc (i : Nat) =>
              ParallelForIterate D r f L (acc.1.set (D - (L + 1)) (i : Int)) acc.2)
            (index, s) := by simp only [ParallelForIterate]
    have hdlt : D - (L + 1) < r.length := by omega
    have hsplit : r.drop (D - (L + 1)) =
        r.getD (D - (L + 1)) 0 :: r.drop ((D - (L + 1)) + 1) := by
      rw [List.getD_eq_getElem r 0 hdlt]
      exact List.drop_eq_getElem_cons hdlt
    have hflat :
        ((cart (r.drop (D - (L + 1)))).map fun c => index.take (D - (L + 1)) ++ c) =
          ((List.range (r.getD (D - (L + 1)) 0).toNat).flatMap fun i =>
            (cart (r.drop ((D - (L + 1)) + 1))).map fun c =>
              index.take (D - (L + 1)) ++ (i : Int) :: c) := by
      rw [hsplit, cart, List.map_flatMap]
      simp only [List.map_map]
      rfl
    rw [hgoalshape]
    refine ⟨e.1, e.2.1, ?_⟩
    rw [e.2.2, ← hflat]

theorem parallel_for_eq_cart (D : Nat) (r : SyclRange) (hr : r.length = D) :
    parallel_for D r = cart r := by
  obtain ⟨-, -, h⟩ :=
    ParallelForIterate_spec D r (fun index t => t ++ [index]) hr D (range.mkDefault D) []
      le_rfl (by simp [range.mkDefault])
  rw [parallel_for, h, Nat.sub_self, List.drop_zero, List.take_zero]
  simp [foldl_snoc]

theorem mem_cart : ∀ {s c : List Int}, c ∈ cart s ↔ inBox c s := by
  intro s
  induction s with
  | nil =>
    intro c
    simp [cart, inBox, List.forall₂_nil_right_iff]
  | cons a rest ih =>
    intro c
    rw [cart]
    simp only [List.mem_flatMap, List.mem_map, List.mem_range]
    constructor
    · rintro ⟨i, hi, c1, hc1, rfl⟩
      exact List.Forall₂.cons ⟨by omega, by omega⟩ (ih.mp hc1)
    · intro h
      rcases List.forall₂_cons_right_iff.mp h with ⟨x, c1, hx, hc1, rfl⟩
      exact ⟨x.toNat, by omega, c1, ih.mpr hc1, by rw [Int.toNat_of_nonneg hx.1]⟩

theorem cart_nodup : ∀ (s : List Int), (cart s).Nodup := by
  intro s
  induction s with
  | nil => simp [cart]
  | cons a rest ih =>
    rw [cart, List.nodup_flatMap]
    constructor
    · intro i _
      exact ih.map fun c1 c2 h => by simpa using h
    · refine (List.nodup_range a.toNat).imp ?_
      intro i j hij x hx1 hx2
      simp only [List.mem_map] at hx1 hx2
      obtain ⟨c1, -, rfl⟩ := hx1
      obtain ⟨c2, -, h2⟩ := hx2
      have : (j : Int) = (i : Int) := (List.cons.injEq _ _ _ _ ▸ h2).1
      omega

theorem range_add_eq_zipWith (D : Nat) (a b : List Int) (ha : a.length = D) (hb : b.length = D) :
    range.add D a b = List.zipWith (· + ·) a b := by
  apply List.ext_getElem
  · simp [range.add, List.length_zipWith, ha, hb]
  · intro n h1 h2
    have hn : n < D := by simpa [range.add] using h1
    simp only [range.add, List.getElem_map, List.getElem_range, List.getElem_zipWith]
    rw [List.getD_eq_getElem a 0 (by omega), List.getD_eq_getElem b 0 (by omega)]

theorem range_mul_eq_zipWith (D : Nat) (a b : List Int) (ha : a.length = D) (hb : b.length = D) :
    range.mul D a b = List.zipWith (· * ·) a b := by
  apply List.ext_getElem
  · simp [range.mul, List.length_zipWith, ha, hb]
  · intro n h1 h2
    have hn : n < D := by simpa [range.mul] using h1
    simp only [range.mul, List.getElem_map, List.getElem_range, List.getElem_zipWith]
    rw [List.getD_eq_getElem a 0 (by omega), List.getD_eq_getElem b 0 (by omega)]

theorem zipWith_add_right_cancel : ∀ (M l1 l2 : List Int),
    l1.length = M.length → l2.length = M.length →
    List.zipWith (· + ·) l1 M = List.zipWith (· + ·) l2 M → l1 = l2 := by
  intro M
  induction M with
  | nil =>
    intro l1 l2 h1 h2 _
    simp only [List.length_nil] at h1 h2
    rw [List.length_eq_zero.mp h1, List.length_eq_zero.mp h2]
  | cons m M ihM =>
    intro l1 l2 h1 h2 heq
    cases l1 with
    | nil => simp at h1
    | cons x1 t1 =>
      cases l2 with
      | nil => simp at h2
      | cons x2 t2 =>
        simp only [List.zipWith_cons_cons, List.cons.injEq] at heq
        have hx : x1 = x2 := by omega
        have ht := ihM t1 t2 (by simpa using h1) (by simpa using h2) heq.2
        rw [hx, ht]

/-- Uniqueness half of the division algorithm, componentwise on coordinate
vectors: a point of a group decomposition determines its group and local
coordinates. -/
theorem block_uniq : ∀ (L g1 g2 l1 l2 : List Int),
    (∀ x ∈ L, 0 < x) →
    inBox l1 L → inBox l2 L →
    g1.length = L.length → g2.length = L.length →
    List.zipWith (· + ·) l1 (List.zipWith (· * ·) L g1)
      = List.zipWith (· + ·) l2 (List.zipWith (· * ·) L g2) →
    l1 = l2 ∧ g1 = g2 := by
  intro L
  induction L with
  | nil =>
    intro g1 g2 l1 l2 _ hl1 hl2 hg1 hg2 _
    have e1 : l1 = [] := List.forall₂_nil_right_iff.mp hl1
    have e2 : l2 = [] := List.forall₂_nil_right_iff.mp hl2
    simp only [List.length_nil] at hg1 hg2
    exact ⟨e1.trans e2.symm,
      (List.length_eq_zero.mp hg1).trans (List.length_eq_zero.mp hg2).symm⟩
  | cons a L ihL =>
    intro g1 g2 l1 l2 hpos hl1 hl2 hg1 hg2 heq
    rcases List.forall₂_cons_right_iff.mp hl1 with ⟨x1, t1, hx1, ht1, rfl⟩
    rcases List.forall₂_cons_right_iff.mp hl2 with ⟨x2, t2, hx2, ht2, rfl⟩
    cases g1 with
    | nil => simp at hg1
    | cons y1 u1 =>
      cases g2 with
      | nil => simp at hg2
      | cons y2 u2 =>
        simp only [List.zipWith_cons_cons, List.cons.injEq] at heq
        have ha : 0 < a := hpos a (List.mem_cons_self a L)
        have hx : x1 = x2 := by
          have hmm := congrArg (fun z => z % a) heq.1
          simpa [Int.add_mul_emod_self_left, Int.emod_eq_of_lt hx1.1 hx1.2,
            Int.emod_eq_of_lt hx2.1 hx2.2] using hmm
        have hy : y1 = y2 := by
          have hcan : a * y1 = a * y2 := by
            have := heq.1
            linarith
          exact mul_left_cancel₀ (ne_of_gt ha) hcan
        obtain ⟨hteq, hueq⟩ := ihL u1 u2 t1 t2
          (fun z hz => hpos z (List.mem_cons_of_mem a hz)) ht1 ht2
          (by simpa using hg1) (by simpa using hg2) heq.2
        exact ⟨by rw [hx, hteq], by rw [hy, hueq]⟩

/-- Bounds half of the division algorithm, componentwise: a group
decomposition point lies inside the full global box. -/
theorem block_bounds : ∀ (L K g l : List Int),
    (∀ x ∈ L, 0 < x) → L.length = K.length →
    inBox g K → inBox l L →
    inBox (List.zipWith (· + ·) l (List.zipWith (· * ·) L g)) (List.zipWith (· * ·) L K) := by
  intro L
  induction L with
  | nil =>
    intro K g l _ _ _ hl
    have hl2 : l = [] := List.forall₂_nil_right_iff.mp hl
    subst hl2
    simp [inBox]
  | cons a L ihL =>
    intro K g l hpos hLK hg hl
    cases K with
    | nil => simp at hLK
    | cons k K =>
      rcases List.forall₂_cons_right_iff.mp hg with ⟨y, g1, hy, hg1, rfl⟩
      rcases List.forall₂_cons_right_iff.mp hl with ⟨x, l1, hx, hl1, rfl⟩
      have ha : 0 < a := hpos a (List.mem_cons_self a L)
      simp only [List.zipWith_cons_cons]
      refine List.Forall₂.cons ⟨?_, ?_⟩
        (ihL K g1 l1 (fun z hz => hpos z (List.mem_cons_of_mem a hz))
          (by simpa using hLK) hg1 hl1)
      · exact add_nonneg hx.1 (mul_nonneg (le_of_lt ha) hy.1)
      · have h1 : a * y ≤ a * (k - 1) := mul_le_mul_of_nonneg_left (by omega) (le_of_lt ha)
        have h2 : a * (k - 1) = a * k - a := by ring
        linarith [hx.2]

/-- Existence half of the division algorithm, componentwise: every point of
the global box decomposes into a group and a local coordinate. -/
theorem block_decompose : ∀ (L K c : List Int),
    (∀ x ∈ L, 0 < x) → L.length = K.length →
    inBox c (List.zipWith (· * ·) L K) →
    ∃ g l, inBox g K ∧ inBox l L ∧
      c = List.zipWith (· + ·) l (List.zipWith (· * ·) L g) := by
  intro L
  induction L with
  | nil =>
    intro K c _ hLK hc
    have hK : K = [] := List.length_eq_zero.mp hLK.symm
    subst hK
    have hc2 : c = [] := List.forall₂_nil_right_iff.mp hc
    subst hc2
    exact ⟨[], [], List.Forall₂.nil, List.Forall₂.nil, rfl⟩
  | cons a L ihL =>
    intro K c hpos hLK hc
    cases K with
    | nil => simp at hLK
    | cons k K =>
      simp only [List.zipWith_cons_cons] at hc
      rcases List.forall₂_cons_right_iff.mp hc with ⟨x, c1, hx, hc1, rfl⟩
      have ha : 0 < a := hpos a (List.mem_cons_self a L)
      obtain ⟨g1, l1, hg1, hl1, rfl⟩ :=
        ihL K c1 (fun z hz => hpos z (List.mem_cons_of_mem a hz)) (by simpa using hLK) hc1
      refine ⟨x / a :: g1, x % a :: l1,
        List.Forall₂.cons ⟨Int.ediv_nonneg hx.1 (le_of_lt ha), ?_⟩ hg1,
        List.Forall₂.cons ⟨Int.emod_nonneg x (ne_of_gt ha), Int.emod_lt_of_pos x ha⟩ hl1, ?_⟩
      · refine (Int.ediv_lt_iff_lt_mul ha).mpr ?_
        rw [mul_comm k a]
        exact hx.2
      · simp only [List.zipWith_cons_cons, List.cons.injEq]
        exact ⟨(Int.emod_add_ediv x a).symm, trivial⟩

/-- The upper-rounding division of the source computes the exact quotient
when the divisor is positive and divides a non-negative dividend. -/
theorem ceilDiv_of_dvd (g l : Int) (hl : 0 < l) (hg : 0 ≤ g) (hdvd : l ∣ g) :
    Int.tdiv (g + l - 1) l = g / l := by
  have h1 : 0 ≤ g + l - 1 := by omega
  rw [Int.tdiv_eq_ediv h1 (by omega)]
  obtain ⟨k, rfl⟩ := hdvd
  have heq : l * k + l - 1 = (l - 1) + l * k := by ring
  rw [heq, Int.add_mul_ediv_left (l - 1) k (by omega : l ≠ 0),
    Int.ediv_eq_zero_of_lt (by omega) (by omega), zero_add,
    Int.mul_ediv_cancel_left k (by omega : l ≠ 0)]

theorem get_group_range_exact (nd : nd_range)
    (hG : nd.GlobalRange.length = nd.dims) (hL : nd.LocalRange.length = nd.dims)
    (hpos : ∀ i, i < nd.dims → 0 < nd.LocalRange.getD i 0)
    (hnn : ∀ i, i < nd.dims → 0 ≤ nd.GlobalRange.getD i 0)
    (hdvd : ∀ i, i < nd.dims → nd.LocalRange.getD i 0 ∣ nd.GlobalRange.getD i 0) :
    (nd.get_group_range).length = nd.dims ∧
    nd.GlobalRange = List.zipWith (· * ·) nd.LocalRange nd.get_group_range := by
  have hlen : (nd.get_group_range).length = nd.dims := by
    simp [nd_range.get_group_range, range.ceilDiv]
  refine ⟨hlen, ?_⟩
  apply List.ext_getElem
  · rw [List.length_zipWith, hL, hlen]
    omega
  · intro n h1 h2
    have hn : n < nd.dims := by omega
    rw [List.getElem_zipWith]
    simp only [nd_range.get_group_range, range.ceilDiv, List.getElem_map, List.getElem_range]
    rw [ceilDiv_of_dvd _ _ (hpos n hn) (hnn n hn) (hdvd n hn)]
    rw [List.getD_eq_getElem nd.GlobalRange 0 (by omega),
      List.getD_eq_getElem nd.LocalRange 0 (by omega)]
    have hdvd2 : nd.LocalRange[n] ∣ nd.GlobalRange[n] := by
      have := hdvd n hn
      rwa [List.getD_eq_getElem nd.GlobalRange 0 (by omega),
        List.getD_eq_getElem nd.LocalRange 0 (by omega)] at this
    exact (Int.mul_ediv_cancel' hdvd2).symm

theorem cart_length : ∀ (s : List Int), (cart s).length = shapeSize s := by
  intro s
  induction s with
  | nil => simp [cart, shapeSize]
  | cons a rest ih =>
    rw [cart, List.length_flatMap]
    have hm : List.map (List.length ∘ fun i : Nat => List.map (fun c => (i : Int) :: c) (cart rest))
          (List.range a.toNat)
        = List.replicate a.toNat (cart rest).length := by
      simp [Function.comp_def, List.map_const']
    rw [hm, List.sum_replicate, smul_eq_mul, ih]
    simp [shapeSize]

/-- Structure of the grouped launch: parallel_for over an nd_range emits,
in order, one item per (group, local) pair, groups outermost, with the item
fields computed by reconstructItem. -/
theorem parallel_for_nd_eq_flatMap (nd : nd_range) (hL : nd.LocalRange.length = nd.dims) :
    parallel_for_nd nd =
      (cart nd.get_group_range).flatMap fun g =>
        (cart nd.LocalRange).map fun l =>
          (⟨range.add nd.dims l (range.mul nd.dims nd.LocalRange g), l, nd⟩ : item) := by
  have hGRlen : (nd.get_group_range).length = nd.dims := by
    simp [nd_range.get_group_range, range.ceilDiv]
  have loop : ∀ (gs : List (List Int)) (Local : List Int) (tr : List item),
      Local.length = nd.dims →
      ((gs.foldl (fun st g =>
          ParallelForIterate nd.dims nd.LocalRange
            (fun Local t =>
              t ++ [⟨range.add nd.dims Local (range.mul nd.dims nd.LocalRange g), Local, nd⟩])
            nd.dims st.1 st.2) (Local, tr)).1.length = nd.dims ∧
       (gs.foldl (fun st g =>
          ParallelForIterate nd.dims nd.LocalRange
            (fun Local t =>
              t ++ [⟨range.add nd.dims Local (range.mul nd.dims nd.LocalRange g), Local, nd⟩])
            nd.dims st.1 st.2) (Local, tr)).2 =
         tr ++ gs.flatMap fun g =>
           (cart nd.LocalRange).map fun l =>
             (⟨range.add nd.dims l (range.mul nd.dims nd.LocalRange g), l, nd⟩ : item)) := by
    intro gs
    induction gs with
    | nil => intro Local tr h; exact ⟨h, by simp⟩
    | cons g gs ihg =>
      intro Local tr h
      obtain ⟨p1, p2, p3⟩ := ParallelForIterate_spec nd.dims nd.LocalRange
        (fun Local t =>
          t ++ [⟨range.add nd.dims Local (range.mul nd.dims nd.LocalRange g), Local, nd⟩])
        hL nd.dims Local tr le_rfl h
      obtain ⟨ix1, t1, hP⟩ :
          ∃ ix1 t1,
            ParallelForIterate nd.dims nd.LocalRange
              (fun Local t =>
                t ++ [⟨range.add nd.dims Local (range.mul nd.dims nd.LocalRange g), Local, nd⟩])
              nd.dims Local tr = (ix1, t1) :=
        ⟨_, _, rfl⟩
      simp only [hP] at p1 p2 p3
      simp only [List.foldl_cons, hP]
      obtain ⟨w1, w2⟩ := ihg ix1 t1 p1
      refine ⟨w1, ?_⟩
      rw [w2]
      have hmap2 : ((cart (nd.LocalRange.drop (nd.dims - nd.dims))).map
          fun c => Local.take (nd.dims - nd.dims) ++ c) = cart nd.LocalRange := by
        simp
      rw [hmap2] at p3
      have ht1 : t1 = tr ++ (cart nd.LocalRange).map fun l =>
          (⟨range.add nd.dims l (range.mul nd.dims nd.LocalRange g), l, nd⟩ : item) := by
        rw [p3]
        exact foldl_map_snoc _ _ _
      rw [ht1, List.flatMap_cons, List.append_assoc]
  obtain ⟨-, -, houter⟩ :=
    ParallelForIterate_spec nd.dims nd.get_group_range
      (fun Group st =>
        ParallelForIterate nd.dims nd.LocalRange
          (fun Local t =>
            t ++ [⟨range.add nd.dims Local (range.mul nd.dims nd.LocalRange Group), Local, nd⟩])
          nd.dims st.1 st.2)
      hGRlen nd.dims (range.mkDefault nd.dims) (range.mkDefault nd.dims, ([] : List item))
      le_rfl (by simp [range.mkDefault])
  have hmap3 : ((cart ((nd.get_group_range).drop (nd.dims - nd.dims))).map
      fun c => (range.mkDefault nd.dims).take (nd.dims - nd.dims) ++ c)
      = cart nd.get_group_range := by
    simp
  rw [hmap3] at houter
  have hfinal := loop (cart nd.get_group_range) (range.mkDefault nd.dims)
    ([] : List item) (by simp [range.mkDefault])
  simp only [parallel_for_nd, nd_range.get_local_range]
  rw [houter]
  exact hfinal.2

/-! Claim theorems. -/

/-- C1: for every range S of dimensionality D in {1,2,3} with all components
non-negative, the flat launch parallel_for(S, f) (sequential variant)
invokes the kernel exactly prod S[i] times, once per distinct coordinate c
with 0 <= c[i] < S[i] for all i, with all D coordinate slots populated at
each invocation; in particular if any S[i] = 0 the kernel is invoked zero
times. -/
theorem C1_flat_launch_coverage (D : Nat) (r : SyclRange)
    (hD : 1 ≤ D ∧ D ≤ 3) (hr : r.length = D)
    (hnn : ∀ i, i < D → 0 ≤ r.getD i 0) :
    (parallel_for D r).length = shapeSize r ∧
    (∀ c ∈ parallel_for D r, c.length = D) ∧
    (parallel_for D r).Nodup ∧
    (∀ c, c ∈ parallel_for D r ↔ inBox c r) ∧
    ((∃ i, i < D ∧ r.getD i 0 = 0) → parallel_for D r = []) := by
  rw [parallel_for_eq_cart D r hr]
  refine ⟨cart_length r, ?_, cart_nodup r, fun c => mem_cart, ?_⟩
  · intro c hc
    have hcl := (mem_cart.mp hc).length_eq
    omega
  · rintro ⟨i, hi, hzero⟩
    have hlen : (cart r).length = 0 := by
      rw [cart_length, shapeSize]
      apply List.prod_eq_zero
      refine List.mem_map.mpr ⟨r.getD i 0, ?_, by rw [hzero]; rfl⟩
      rw [List.getD_eq_getElem r 0 (by omega)]
      exact List.getElem_mem (by omega)
    exact List.length_eq_zero.mp hlen

/-- Witness for C1: the flat launch over range(4) visits exactly the four
coordinates 0..3. -/
theorem C1_flat_launch_coverage_witness :
    ((1 ≤ 1 ∧ 1 ≤ 3) ∧ ([(4 : Int)] : SyclRange).length = 1 ∧
      (∀ i, i < 1 → 0 ≤ ([(4 : Int)] : SyclRange).getD i 0)) ∧
    ((parallel_for 1 [(4 : Int)]).length = shapeSize [(4 : Int)] ∧
     (∀ c ∈ parallel_for 1 [(4 : Int)], c.length = 1) ∧
     (parallel_for 1 [(4 : Int)]).Nodup ∧
     (∀ c, c ∈ parallel_for 1 [(4 : Int)] ↔ inBox c [(4 : Int)]) ∧
     ((∃ i, i < 1 ∧ ([(4 : Int)] : SyclRange).getD i 0 = 0) →
        parallel_for 1 [(4 : Int)] = [])) :=
  ⟨⟨by decide, by decide, by decide⟩,
   C1_flat_launch_coverage 1 [(4 : Int)] (by decide) (by decide) (by decide)⟩

/-- C2: for every nd_range with positive local sizes (and non-negative
global sizes, since ranges used as sizes are non-negative), get_group_range
computes (GlobalSize[i] + LocalSize[i] - 1) / LocalSize[i] in every
dimension with the C++ truncating division, and the result q satisfies
G <= L * q < G + L, i.e. q is the ceiling of G / L. -/
theorem C2_group_range_ceil (r : nd_range)
    (hG : r.GlobalRange.length = r.dims) (hL : r.LocalRange.length = r.dims)
    (hpos : ∀ i, i < r.dims → 0 < r.LocalRange.getD i 0)
    (hnn : ∀ i, i < r.dims → 0 ≤ r.GlobalRange.getD i 0) :
    (r.get_group_range).length = r.dims ∧
    ∀ i, i < r.dims →
      (r.get_group_range).getD i 0 =
        Int.tdiv (r.GlobalRange.getD i 0 + r.LocalRange.getD i 0 - 1)
          (r.LocalRange.getD i 0) ∧
      r.GlobalRange.getD i 0 ≤ r.LocalRange.getD i 0 * (r.get_group_range).getD i 0 ∧
      r.LocalRange.getD i 0 * (r.get_group_range).getD i 0 <
        r.GlobalRange.getD i 0 + r.LocalRange.getD i 0 := by
  have hlen : (r.get_group_range).length = r.dims := by
    simp [nd_range.get_group_range, range.ceilDiv]
  refine ⟨hlen, ?_⟩
  intro i hi
  have hval : (r.get_group_range).getD i 0 =
      Int.tdiv (r.GlobalRange.getD i 0 + r.LocalRange.getD i 0 - 1)
        (r.LocalRange.getD i 0) := by
    rw [List.getD_eq_getElem _ 0 (by omega : i < (r.get_group_range).length)]
    simp [nd_range.get_group_range, range.ceilDiv]
  set g := r.GlobalRange.getD i 0 with hgdef
  set l := r.LocalRange.getD i 0 with hldef
  have hlp : 0 < l := hpos i hi
  have hgn : 0 ≤ g := hnn i hi
  have htd : Int.tdiv (g + l - 1) l = (g + l - 1) / l :=
    Int.tdiv_eq_ediv (by omega) (by omega)
  have hdm := Int.ediv_add_emod (g + l - 1) l
  have hm1 : 0 ≤ (g + l - 1) % l := Int.emod_nonneg _ (by omega)
  have hm2 : (g + l - 1) % l < l := Int.emod_lt_of_pos _ hlp
  rw [hval, htd]
  set q := (g + l - 1) / l with hqdef
  set m := (g + l - 1) % l with hmdef
  set A := l * q with hAdef
  constructor
  · omega
  · omega

/-- Witness for C2: GlobalSize (10,10) with LocalSize (3,3) gives group
range (4,4). -/
theorem C2_group_range_ceil_witness :
    ((nd_range.make 2 [10, 10] [3, 3]).GlobalRange.length
        = (nd_range.make 2 [10, 10] [3, 3]).dims ∧
     (nd_range.make 2 [10, 10] [3, 3]).LocalRange.length
        = (nd_range.make 2 [10, 10] [3, 3]).dims ∧
     (∀ i, i < (nd_range.make 2 [10, 10] [3, 3]).dims →
        0 < (nd_range.make 2 [10, 10] [3, 3]).LocalRange.getD i 0) ∧
     (∀ i, i < (nd_range.make 2 [10, 10] [3, 3]).dims →
        0 ≤ (nd_range.make 2 [10, 10] [3, 3]).GlobalRange.getD i 0)) ∧
    (((nd_range.make 2 [10, 10] [3, 3]).get_group_range).length
        = (nd_range.make 2 [10, 10] [3, 3]).dims ∧
     ∀ i, i < (nd_range.make 2 [10, 10] [3, 3]).dims →
       ((nd_range.make 2 [10, 10] [3, 3]).get_group_range).getD i 0 =
         Int.tdiv ((nd_range.make 2 [10, 10] [3, 3]).GlobalRange.getD i 0
             + (nd_range.make 2 [10, 10] [3, 3]).LocalRange.getD i 0 - 1)
           ((nd_range.make 2 [10, 10] [3, 3]).LocalRange.getD i 0) ∧
       (nd_range.make 2 [10, 10] [3, 3]).GlobalRange.getD i 0 ≤
         (nd_range.make 2 [10, 10] [3, 3]).LocalRange.getD i 0
           * ((nd_range.make 2 [10, 10] [3, 3]).get_group_range).getD i 0 ∧
       (nd_range.make 2 [10, 10] [3, 3]).LocalRange.getD i 0
           * ((nd_range.make 2 [10, 10] [3, 3]).get_group_range).getD i 0 <
         (nd_range.make 2 [10, 10] [3, 3]).GlobalRange.getD i 0
           + (nd_range.make 2 [10, 10] [3, 3]).LocalRange.getD i 0) ∧
    (nd_range.make 2 [10, 10] [3, 3]).get_group_range = [4, 4] :=
  ⟨⟨rfl, rfl, by decide, by decide⟩,
   C2_group_range_ceil (nd_range.make 2 [10, 10] [3, 3]) rfl rfl (by decide) (by decide),
   by decide⟩

/-- C3: for every grouped launch over an nd_range whose global size is an
exact per-dimension multiple of the (positive) local size, every item passed
to the kernel satisfies get_global = Local + LocalRange * Group with no
offset term, for a group coordinate inside the group range and a local
coordinate inside the local range, and get_local is that local coordinate;
across the whole launch the global coordinates produced are exactly the
points of the global box, each exactly once. -/
theorem C3_grouped_launch (nd : nd_range)
    (hD : 1 ≤ nd.dims ∧ nd.dims ≤ 3)
    (hG : nd.GlobalRange.length = nd.dims) (hL : nd.LocalRange.length = nd.dims)
    (hpos : ∀ i, i < nd.dims → 0 < nd.LocalRange.getD i 0)
    (hnn : ∀ i, i < nd.dims → 0 ≤ nd.GlobalRange.getD i 0)
    (hdvd : ∀ i, i < nd.dims → nd.LocalRange.getD i 0 ∣ nd.GlobalRange.getD i 0) :
    (∀ it ∈ parallel_for_nd nd, ∃ g l,
        g ∈ cart nd.get_group_range ∧ l ∈ cart nd.LocalRange ∧
        item.get_global it = range.add nd.dims l (range.mul nd.dims nd.LocalRange g) ∧
        item.get_local it = l) ∧
    ((parallel_for_nd nd).map item.get_global).Nodup ∧
    (∀ c, c ∈ (parallel_for_nd nd).map item.get_global ↔ inBox c nd.GlobalRange) := by
  obtain ⟨hKlen, hGzip⟩ := get_group_range_exact nd hG hL hpos hnn hdvd
  have hposL : ∀ x ∈ nd.LocalRange, 0 < x := by
    intro x hx
    rcases List.mem_iff_getElem.mp hx with ⟨n, hn, rfl⟩
    have hp := hpos n (by omega)
    rwa [List.getD_eq_getElem _ 0 hn] at hp
  have hflat := parallel_for_nd_eq_flatMap nd hL
  have hconv : ∀ g l : List Int, g.length = nd.dims → l.length = nd.dims →
      range.add nd.dims l (range.mul nd.dims nd.LocalRange g)
        = List.zipWith (· + ·) l (List.zipWith (· * ·) nd.LocalRange g) := by
    intro g l hg hlg
    rw [range_mul_eq_zipWith nd.dims nd.LocalRange g hL hg,
      range_add_eq_zipWith nd.dims l _ hlg
        (by simp [List.length_zipWith, hL, hg])]
  have hglen : ∀ g ∈ cart nd.get_group_range, g.length = nd.dims := by
    intro g hg
    have hh := (mem_cart.mp hg).length_eq
    omega
  have hllen : ∀ l ∈ cart nd.LocalRange, l.length = nd.dims := by
    intro l hl
    have hh := (mem_cart.mp hl).length_eq
    omega
  have hglobals : (parallel_for_nd nd).map item.get_global =
      (cart nd.get_group_range).flatMap fun g =>
        (cart nd.LocalRange).map fun l =>
          range.add nd.dims l (range.mul nd.dims nd.LocalRange g) := by
    rw [hflat, List.map_flatMap]
    simp only [List.map_map]
    rfl
  refine ⟨?_, ?_, ?_⟩
  · intro it hit
    rw [hflat] at hit
    rcases List.mem_flatMap.mp hit with ⟨g, hg, hin⟩
    rcases List.mem_map.mp hin with ⟨l, hl, rfl⟩
    exact ⟨g, l, hg, hl, rfl, rfl⟩
  · rw [hglobals, List.nodup_flatMap]
    constructor
    · intro g hg
      refine List.Nodup.map_on ?_ (cart_nodup nd.LocalRange)
      intro l1 hl1 l2 hl2 heq
      rw [hconv g l1 (hglen g hg) (hllen l1 hl1),
        hconv g l2 (hglen g hg) (hllen l2 hl2)] at heq
      exact zipWith_add_right_cancel _ l1 l2
        (by simp [List.length_zipWith, hL, hglen g hg, hllen l1 hl1])
        (by simp [List.length_zipWith, hL, hglen g hg, hllen l2 hl2]) heq
    · refine List.Pairwise.imp_of_mem ?_ (cart_nodup nd.get_group_range)
      intro g1 g2 hg1 hg2 hne
      intro x hx1 hx2
      rcases List.mem_map.mp hx1 with ⟨l1, hl1, e1⟩
      rcases List.mem_map.mp hx2 with ⟨l2, hl2, e2⟩
      have e3 : range.add nd.dims l1 (range.mul nd.dims nd.LocalRange g1)
          = range.add nd.dims l2 (range.mul nd.dims nd.LocalRange g2) :=
        e1.trans e2.symm
      rw [hconv g1 l1 (hglen g1 hg1) (hllen l1 hl1),
        hconv g2 l2 (hglen g2 hg2) (hllen l2 hl2)] at e3
      obtain ⟨-, hgeq⟩ := block_uniq nd.LocalRange g1 g2 l1 l2 hposL
        (mem_cart.mp hl1) (mem_cart.mp hl2)
        (by rw [hglen g1 hg1, hL]) (by rw [hglen g2 hg2, hL]) e3
      exact hne hgeq
  · intro c
    rw [hglobals]
    constructor
    · intro hc
      rcases List.mem_flatMap.mp hc with ⟨g, hg, hin⟩
      rcases List.mem_map.mp hin with ⟨l, hl, rfl⟩
      rw [hconv g l (hglen g hg) (hllen l hl), hGzip]
      exact block_bounds nd.LocalRange nd.get_group_range g l hposL
        (by rw [hL, hKlen]) (mem_cart.mp hg) (mem_cart.mp hl)
    · intro hc
      rw [hGzip] at hc
      obtain ⟨g, l, hgK, hlL, rfl⟩ := block_decompose nd.LocalRange nd.get_group_range c
        hposL (by rw [hL, hKlen]) hc
      refine List.mem_flatMap.mpr ⟨g, mem_cart.mpr hgK,
        List.mem_map.mpr ⟨l, mem_cart.mpr hlL, ?_⟩⟩
      rw [hconv g l (by have hh := hgK.length_eq; omega) (by have hh := hlL.length_eq; omega)]

/-- Witness for C3: the grouped launch with GlobalSize (4,4) and LocalSize
(2,2). -/
theorem C3_grouped_launch_witness :
    ((1 ≤ (nd_range.make 2 [4, 4] [2, 2]).dims ∧ (nd_range.make 2 [4, 4] [2, 2]).dims ≤ 3) ∧
     (nd_range.make 2 [4, 4] [2, 2]).GlobalRange.length = (nd_range.make 2 [4, 4] [2, 2]).dims ∧
     (nd_range.make 2 [4, 4] [2, 2]).LocalRange.length = (nd_range.make 2 [4, 4] [2, 2]).dims ∧
     (∀ i, i < (nd_range.make 2 [4, 4] [2, 2]).dims →
        0 < (nd_range.make 2 [4, 4] [2, 2]).LocalRange.getD i 0) ∧
     (∀ i, i < (nd_range.make 2 [4, 4] [2, 2]).dims →
        0 ≤ (nd_range.make 2 [4, 4] [2, 2]).GlobalRange.getD i 0) ∧
     (∀ i, i < (nd_range.make 2 [4, 4] [2, 2]).dims →
        (nd_range.make 2 [4, 4] [2, 2]).LocalRange.getD i 0
          ∣ (nd_range.make 2 [4, 4] [2, 2]).GlobalRange.getD i 0)) ∧
    ((∀ it ∈ parallel_for_nd (nd_range.make 2 [4, 4] [2, 2]), ∃ g l,
        g ∈ cart (nd_range.make 2 [4, 4] [2, 2]).get_group_range ∧
        l ∈ cart (nd_range.make 2 [4, 4] [2, 2]).LocalRange ∧
        item.get_global it = range.add (nd_range.make 2 [4, 4] [2, 2]).dims l
          (range.mul (nd_range.make 2 [4, 4] [2, 2]).dims
            (nd_range.make 2 [4, 4] [2, 2]).LocalRange g) ∧
        item.get_local it = l) ∧
     ((parallel_for_nd (nd_range.make 2 [4, 4] [2, 2])).map item.get_global).Nodup ∧
     (∀ c, c ∈ (parallel_for_nd (nd_range.make 2 [4, 4] [2, 2])).map item.get_global ↔
        inBox c (nd_range.make 2 [4, 4] [2, 2]).GlobalRange)) :=
  ⟨⟨by decide, rfl, rfl, by decide, by decide, by decide⟩,
   C3_grouped_launch (nd_range.make 2 [4, 4] [2, 2]) (by decide) rfl rfl
     (by decide) (by decide) (by decide)⟩

theorem getD_snoc_self {α : Type} (l : List α) (x : α) (d : α) :
    (l ++ [x]).getD l.length d = x := by
  rw [List.getD_eq_getElem?_getD, List.getElem?_append_right le_rfl]
  simp

theorem getD_append_left_of_lt {α : Type} (l l2 : List α) (i : Nat) (d : α)
    (h : i < l.length) : (l ++ l2).getD i d = l.getD i d := by
  rw [List.getD_eq_getElem?_getD, List.getD_eq_getElem?_getD, List.getElem?_append_left h]

theorem getD_set_ne {α : Type} (l : List α) (i j : Nat) (x : α) (d : α) (h : i ≠ j) :
    (l.set i x).getD j d = l.getD j d := by
  rw [List.getD_eq_getElem?_getD, List.getD_eq_getElem?_getD, List.getElem?_set_ne h]

theorem chain_eq_rowMajor : ∀ (shape c : List Int), c.length = shape.length →
    accessor.chainSubscriptOffset shape c = rowMajorOffset shape c := by
  intro shape
  induction shape with
  | nil =>
    intro c hc
    have hc2 : c = [] := List.length_eq_zero.mp hc
    subst hc2
    rfl
  | cons s srest ih =>
    intro c hc
    cases c with
    | nil => simp at hc
    | cons c0 crest =>
      simp only [accessor.chainSubscriptOffset, accessor.subscriptOffset, rowMajorOffset,
        List.drop_one, List.tail_cons]
      rw [ih crest (by simpa using hc)]

/-- C4 counterexample: for dims = 1, the offset of an nd_range constructed
without an explicit offset is the three-component vector {0,0,0} (the
initializer list picks the inherited std::vector constructor), not the
all-zero coordinate vector of length 1. -/
theorem C4_default_offset_counterexample :
    (nd_range.make 1 [4] [2]).Offset ≠ List.replicate 1 (0 : Int) ∧
    (nd_range.make 1 [4] [2]).Offset.length = 3 := by decide

/-- C4 (amended): an nd_range constructed without an explicit offset has
offset equal to the three-component all-zero vector {0,0,0} for every dims;
every component read below dims is zero, but the underlying vector has
length dims only when dims = 3. -/
theorem C4_default_offset (dims : Nat) (g l : SyclRange) :
    (nd_range.make dims g l).Offset = List.replicate 3 (0 : Int) ∧
    (∀ i, (nd_range.make dims g l).Offset.getD i 0 = 0) ∧
    ((nd_range.make dims g l).Offset.length = dims ↔ dims = 3) := by
  refine ⟨rfl, ?_, ?_⟩
  · intro i
    rcases i with _ | _ | _ | n <;> rfl
  · show (3 : Nat) = dims ↔ dims = 3
    omega

/-- C6 counterexample: on a buffer of shape (2,3), the coordinate (0,1) has
flat row-major offset 1, but the subscript operator applied to that offset
addresses the storage block starting at offset 3 (the second row), not the
element at offset 1: the flat-offset form does not resolve to the same
element as the coordinate form when the dimensionality is 2. -/
theorem C6_indexing_counterexample :
    accessor.idOffset [2, 3] [0, 1] = 1 ∧
    accessor.subscriptOffset [2, 3] (accessor.idOffset [2, 3] [0, 1]) = 3 ∧
    accessor.subscriptOffset [2, 3] (accessor.idOffset [2, 3] [0, 1])
      ≠ accessor.idOffset [2, 3] [0, 1] := by decide

/-- C6 (amended): the id form and the item form always address the same
element, namely the row-major offset of the coordinate; for one-dimensional
buffers the subscript form applied to the flat offset addresses that same
element; in general the subscript form selects a whole slice along the
first dimension, and chaining one subscript per dimension reaches exactly
the row-major element of the full coordinate. -/
theorem C6_indexing_agreement (shape : SyclRange) (it : item) (n c0 : Int)
    (c : List Int) (hc : c.length = shape.length) :
    accessor.itemOffset shape it = accessor.idOffset shape it.GlobalIndex ∧
    accessor.subscriptOffset [n] c0 = accessor.idOffset [n] [c0] ∧
    accessor.chainSubscriptOffset shape c = accessor.idOffset shape c := by
  refine ⟨rfl, ?_, ?_⟩
  · simp [accessor.subscriptOffset, accessor.idOffset, rowMajorOffset]
  · exact chain_eq_rowMajor shape c hc

/-- Witness for C6 (amended) at shape (2,3), coordinate (1,2) and a
one-dimensional instance of the subscript form. -/
theorem C6_indexing_agreement_witness :
    (([(1 : Int), 2] : List Int).length = ([2, 3] : SyclRange).length) ∧
    (accessor.itemOffset [2, 3] ⟨[1, 2], [0, 0], nd_range.make 2 [2, 3] [1, 1]⟩
        = accessor.idOffset [2, 3]
            (⟨[1, 2], [0, 0], nd_range.make 2 [2, 3] [1, 1]⟩ : item).GlobalIndex ∧
     accessor.subscriptOffset [(5 : Int)] 4 = accessor.idOffset [(5 : Int)] [4] ∧
     accessor.chainSubscriptOffset [2, 3] [1, 2] = accessor.idOffset [2, 3] [1, 2]) :=
  ⟨by decide,
   C6_indexing_agreement [2, 3] ⟨[1, 2], [0, 0], nd_range.make 2 [2, 3] [1, 1]⟩ 5 4 [1, 2]
     (by decide)⟩

/-- C5: a buffer constructed by copy from another buffer owns a freshly
allocated block distinct from the block of the source, holding a copy of
the contents of the source at construction time; writing any element
through an accessor of the copy leaves every element observed through an
accessor bound to the source unchanged. -/
theorem C5_buffer_copy_isolation {α : Type} [Inhabited α] (m : Memory α) (b1 : buffer α)
    (hv : b1.block < m.blocks.length) :
    (buffer.copy m b1).2.block ≠ b1.block ∧
    (∀ j, accessor.readFlat (buffer.copy m b1).1 (buffer.get_access (buffer.copy m b1).2) j
        = accessor.readFlat m (buffer.get_access b1) j) ∧
    (∀ i v j,
      accessor.readFlat
          (accessor.writeFlat (buffer.copy m b1).1
            (buffer.get_access (buffer.copy m b1).2) i v)
          (buffer.get_access b1) j
        = accessor.readFlat m (buffer.get_access b1) j) := by
  refine ⟨by show m.blocks.length ≠ b1.block; omega, ?_, ?_⟩
  · intro j
    show ((m.blocks ++ [m.blocks.getD b1.block []]).getD m.blocks.length []).getD j default
      = (m.blocks.getD b1.block []).getD j default
    rw [getD_snoc_self]
  · intro i v j
    show (((m.blocks ++ [m.blocks.getD b1.block []]).set m.blocks.length
        (((m.blocks ++ [m.blocks.getD b1.block []]).getD m.blocks.length []).set i v)).getD
          b1.block []).getD j default
      = (m.blocks.getD b1.block []).getD j default
    rw [getD_set_ne _ _ _ _ _ (by omega), getD_append_left_of_lt _ _ _ _ hv]

/-- Witness for C5 on a one-block memory holding (1,2) wrapped by a host
buffer. -/
theorem C5_buffer_copy_isolation_witness :
    ((buffer.ofHostData (Memory.mk [[1, 2]] : Memory Int) 0 [2]).block
        < (Memory.mk [[1, 2]] : Memory Int).blocks.length) ∧
    ((buffer.copy (Memory.mk [[1, 2]] : Memory Int)
        (buffer.ofHostData (Memory.mk [[1, 2]]) 0 [2])).2.block
        ≠ (buffer.ofHostData (Memory.mk [[1, 2]] : Memory Int) 0 [2]).block ∧
     (∀ j, accessor.readFlat
          (buffer.copy (Memory.mk [[1, 2]] : Memory Int)
            (buffer.ofHostData (Memory.mk [[1, 2]]) 0 [2])).1
          (buffer.get_access
            (buffer.copy (Memory.mk [[1, 2]] : Memory Int)
              (buffer.ofHostData (Memory.mk [[1, 2]]) 0 [2])).2) j
        = accessor.readFlat (Memory.mk [[1, 2]] : Memory Int)
            (buffer.get_access (buffer.ofHostData (Memory.mk [[1, 2]]) 0 [2])) j) ∧
     (∀ i v j,
       accessor.readFlat
           (accessor.writeFlat
             (buffer.copy (Memory.mk [[1, 2]] : Memory Int)
               (buffer.ofHostData (Memory.mk [[1, 2]]) 0 [2])).1
             (buffer.get_access
               (buffer.copy (Memory.mk [[1, 2]] : Memory Int)
                 (buffer.ofHostData (Memory.mk [[1, 2]]) 0 [2])).2) i v)
           (buffer.get_access (buffer.ofHostData (Memory.mk [[1, 2]]) 0 [2]))
           j
         = accessor.readFlat (Memory.mk [[1, 2]] : Memory Int)
             (buffer.get_access (buffer.ofHostData (Memory.mk [[1, 2]]) 0 [2])) j)) :=
  ⟨by decide,
   C5_buffer_copy_isolation (Memory.mk [[1, 2]])
     (buffer.ofHostData (Memory.mk [[1, 2]]) 0 [2]) (by decide)⟩

/-- C7: a one-dimensional buffer constructed from a start/end iterator pair
over a non-empty sequence of n elements allocates a fresh owned block,
has shape (n), and accessor reads at flat offsets 0..n-1 return the
original elements in sequence order. -/
theorem C7_iter_pair_buffer {α : Type} [Inhabited α] (m : Memory α) (data : List α)
    (hne : data ≠ []) :
    (buffer.ofIterPair m data).2.shape = [(data.length : Int)] ∧
    (buffer.ofIterPair m data).2.block = m.blocks.length ∧
    ∀ i, i < data.length →
      accessor.readFlat (buffer.ofIterPair m data).1
        (buffer.get_access (buffer.ofIterPair m data).2) i = data.getD i default := by
  refine ⟨rfl, rfl, ?_⟩
  intro i hi
  show ((m.blocks ++ [data]).getD m.blocks.length []).getD i default = data.getD i default
  rw [getD_snoc_self]

/-- Witness for C7: the buffer over the sequence 1,2,3,4,5 has shape (5)
and reads back 1..5 at offsets 0..4. -/
theorem C7_iter_pair_buffer_witness :
    (([(1 : Int), 2, 3, 4, 5] : List Int) ≠ []) ∧
    ((buffer.ofIterPair (Memory.mk [] : Memory Int) [1, 2, 3, 4, 5]).2.shape
        = [(([(1 : Int), 2, 3, 4, 5] : List Int).length : Int)] ∧
     (buffer.ofIterPair (Memory.mk [] : Memory Int) [1, 2, 3, 4, 5]).2.block
        = (Memory.mk [] : Memory Int).blocks.length ∧
     ∀ i, i < ([(1 : Int), 2, 3, 4, 5] : List Int).length →
       accessor.readFlat (buffer.ofIterPair (Memory.mk [] : Memory Int) [1, 2, 3, 4, 5]).1
         (buffer.get_access
           (buffer.ofIterPair (Memory.mk [] : Memory Int) [1, 2, 3, 4, 5]).2) i
         = ([(1 : Int), 2, 3, 4, 5] : List Int).getD i default) :=
  ⟨by decide,
   C7_iter_pair_buffer (Memory.mk []) [1, 2, 3, 4, 5] (by decide)⟩

/-- C8: the three-argument launch overload taking an opaque program token
forwards to the two-argument overload, so it invokes the kernel on exactly
the same sequence of coordinates and items for every value of the token,
for both the flat-range and the nd_range instantiations. -/
theorem C8_program_token_inert :
    ∀ (P : Type) (p : P) (D : Nat) (r : SyclRange) (nd : nd_range),
      parallel_for_program D r p = parallel_for D r ∧
      parallel_for_nd_program nd p = parallel_for_nd nd :=
  fun _ _ _ _ _ => ⟨rfl, rfl⟩

/-- C9: the iterator-pair buffer constructor leaves the ReadOnly member
uninitialized (its initializer list mentions only Allocation and Access),
while every other constructor assigns it: false for the allocating, mutable
host-wrapping and copy constructors, true for the const host-wrapping
constructor, and false for a copy even when the source is read-only. -/
theorem C9_readonly_flag_evaluation :
    (buffer.ofIterPair (Memory.mk [] : Memory Int) [1, 2, 3, 4, 5]).2.ReadOnly = none ∧
    (buffer.ofRange (Memory.mk [] : Memory Int) [5]).2.ReadOnly = some false ∧
    (buffer.ofHostData (Memory.mk [[1, 2, 3]] : Memory Int) 0 [3]).ReadOnly = some false ∧
    (buffer.ofConstHostData (Memory.mk [[1, 2, 3]] : Memory Int) 0 [3]).ReadOnly = some true ∧
    (buffer.copy (Memory.mk [[1, 2, 3]] : Memory Int)
      (buffer.ofConstHostData (Memory.mk [[1, 2, 3]]) 0 [3])).2.ReadOnly = some false := by
  decide

/-- C10: parallel_for_workgroup and parallel_for_workitem have empty
function bodies: for every range and functor they never invoke the functor
and leave every reachable state unchanged. -/
theorem C10_workgroup_workitem_noop :
    ∀ (R F σ : Type) (r : R) (f : F) (s : σ),
      parallel_for_workgroup r f s = s ∧ parallel_for_workitem r f s = s :=
  fun _ _ _ _ _ _ => ⟨rfl, rfl⟩

end TriSYCL
